import Mathlib

/-!
Shallow embedding of the Parameter Staging & Reconciliation Engine of the
IronWing repository (`src/hooks/use-params.ts`, plus the edit-confirmation
handler in `src/components/ConfigPanel.tsx`), and proofs settling the
frozen claims about it.

Values are JavaScript numbers; only finite values, `NaN` and the two
infinities matter to the engine's comparisons, so a JS number is modelled
as a rational or one of the three non-finite points.  JS `Map` and plain
objects keyed by parameter name are modelled as association lists with
JS `Map.set` / object-spread update semantics (an existing key keeps its
position, a new key is appended).
-/

namespace IronWing

/-- A JavaScript `number` as the engine observes it: a finite value
(modelled as a rational) or one of `NaN`, `Infinity`, `-Infinity`. -/
inductive JSNum where
  | num (q : ℚ)
  | nan
  | inf
  | negInf
deriving DecidableEq, Repr

/-- `Number.isFinite`. -/
def JSNum.isFinite : JSNum → Bool
  | .num _ => true
  | _ => false

/-- JavaScript strict equality `===` on numbers: `NaN` is unequal to
everything, including itself; finite values compare numerically. -/
def jsEq : JSNum → JSNum → Bool
  | .num a, .num b => a == b
  | .inf, .inf => true
  | .negInf, .negInf => true
  | _, _ => false

/-- A string-keyed map (JS `Map<string, α>` / `Record<string, α>`),
as an association list in insertion order. -/
abbrev SMap (α : Type) : Type := List (String × α)

namespace SMap

/-- `m.get(k)` / `m[k]`: first (and, with unique keys, only) binding. -/
def get? {α : Type} : SMap α → String → Option α
  | [], _ => none
  | (k, v) :: rest, n => if k = n then some v else get? rest n

/-- `m.has(k)`. -/
def hasKey {α : Type} (m : SMap α) (n : String) : Bool :=
  (m.get? n).isSome

/-- `m.set(k, v)` / `{ ...m, [k]: v }`: replace in place if the key is
present, append otherwise. -/
def set {α : Type} : SMap α → String → α → SMap α
  | [], n, v => [(n, v)]
  | (k, w) :: rest, n, v =>
    if k = n then (k, v) :: rest else (k, w) :: set rest n v

/-- `m.delete(k)`. -/
def del {α : Type} (m : SMap α) (n : String) : SMap α :=
  m.filter fun p => p.1 != n

/-- Key list, in insertion order. -/
def keys {α : Type} (m : SMap α) : List String :=
  m.map Prod.fst

end SMap

/-- The fields of a `Param` the engine reads (`p.name`, `p.value`). -/
structure Param where
  name : String
  value : JSNum
deriving DecidableEq, Repr

/-- `ParamStore`: the authoritative store, `{ params: Record<string, Param> }`. -/
structure ParamStore where
  params : SMap Param
deriving DecidableEq, Repr

/-- `store?.params[name]?.value`. -/
def storeValue (store : Option ParamStore) (name : String) : Option JSNum :=
  match store with
  | none => none
  | some s => (s.params.get? name).map Param.value

/-- The staging set: `Map<string, number>`. -/
abbrev Staging : Type := SMap JSNum

/-- `FilterMode = "all" | "modified" | "standard"`. -/
inductive FilterMode where
  | all
  | modified
  | standard
deriving DecidableEq, Repr

/-- The slice of the `useParams` hook state the staging engine mutates. -/
structure EngineState where
  store : Option ParamStore
  staged : Staging
  filterMode : FilterMode
deriving DecidableEq, Repr

/-- `stage(name, value)` (use-params.ts lines 181-200): if the store knows
`name` and its current value is strictly equal (`===`) to `value`, delete
any staged entry for `name`; otherwise insert/overwrite `name → value`. -/
def stage (store : Option ParamStore) (staged : Staging) (name : String)
    (value : JSNum) : Staging :=
  match storeValue store name with
  | some current =>
    if jsEq current value then staged.del name else staged.set name value
  | none => staged.set name value

/-- `unstage(name)` (lines 202-208). -/
def unstage (staged : Staging) (name : String) : Staging :=
  staged.del name

/-- `unstageAll()` (lines 210-212). -/
def unstageAll : Staging := []

/-- The `subscribeParamStore(setStore)` handler (lines 40-53): a pushed
authoritative store replaces the current one wholesale.  Nothing else in
the state is touched. -/
def onStoreUpdate (st : EngineState) (pushed : Option ParamStore) :
    EngineState :=
  { st with store := pushed }

/-- The single-write confirmation in `write` (lines 158-179): patch the
store entry for `name` with the confirmed param, leaving a null store and
everything else unchanged. -/
def writeConfirm (st : EngineState) (name : String) (confirmed : Param) :
    EngineState :=
  match st.store with
  | none => st
  | some s => { st with store := some ⟨s.params.set name confirmed⟩ }

/-- The disconnect effect (lines 56-66): clear the store, the staging set
and reset the filter mode to `"all"`. -/
def disconnect (_st : EngineState) : EngineState :=
  { store := none, staged := [], filterMode := .all }

/-- One per-entry result of `writeBatchParams`. -/
structure WriteResult where
  name : String
  success : Bool
deriving DecidableEq, Repr

/-- The snapshot `applyStaged` captures (lines 215-216): `undefined` when
disconnected or nothing is staged (early return), otherwise the entry
list of the staging set at call time. -/
def applyStagedSnapshot (connected : Bool) (staged : Staging) :
    Option (List (String × JSNum)) :=
  if !connected || staged.isEmpty then none else some staged

/-- The success-removal pass of `applyStaged` (lines 219-227): delete from
the staging set every name whose result reports success. -/
def removeSucceeded (prev : Staging) (results : List WriteResult) : Staging :=
  (results.filter fun r => r.success).foldl (fun m r => m.del r.name) prev

/-- The completion of `applyStaged` (lines 217-238), acting on the staging
set as it is when the batch write resolves: on per-entry results, remove
the successes; on a wholesale (transport-level) failure, the `catch` arm
only reports and leaves the staging set alone. -/
def applyStagedCompletion (prev : Staging)
    (outcome : Except String (List WriteResult)) : Staging :=
  match outcome with
  | .ok results => removeSucceeded prev results
  | .error _ => prev

/-- Whether `loadFromFile` stages a parsed entry (lines 276-281): the store
must know the name and hold a value not strictly equal to the imported one
(`current !== undefined && current !== value`). -/
def stagesCond (s : ParamStore) (e : String × JSNum) : Bool :=
  match (s.params.get? e.1).map Param.value with
  | some current => !(jsEq current e.2)
  | none => false

/-- The staging merge of `loadFromFile` (lines 272-284) over the parsed
name→value entries, in file order. -/
def importUpdate (s : ParamStore) (prev : Staging)
    (parsed : List (String × JSNum)) : Staging :=
  parsed.foldl
    (fun next e => if stagesCond s e then next.set e.1 e.2 else next) prev

/-- `loadFromFile` (lines 260-297) as a state transformer on the engine
state, taking the parsed file contents as input: with a store present,
merge differing entries into the staging set and switch the filter mode to
`"modified"` when at least one entry was staged; with no store, change
nothing. -/
def loadFromFile (st : EngineState) (parsed : List (String × JSNum)) :
    EngineState :=
  match st.store with
  | some s =>
    { st with
      staged := importUpdate s st.staged parsed
      filterMode :=
        if parsed.any (stagesCond s) then .modified else st.filterMode }
  | none => st

/-- The external metadata fields the filter reads
(`userLevel`, `description`, `humanName`). -/
structure ParamMeta where
  userLevel : Option String
  description : String
  humanName : String
deriving DecidableEq, Repr

/-- `metadata?.get(name)`. -/
def metaFor (metadata : Option (SMap ParamMeta)) (name : String) :
    Option ParamMeta :=
  match metadata with
  | none => none
  | some m => m.get? name

/-- `hay.includes(needle)`: substring test. -/
def strIncludes (hay needle : String) : Bool :=
  hay.toList.tails.any fun t => needle.toList.isPrefixOf t

/-- `paramList` (use-params.ts lines 96-99): the store's params sorted by
name (`localeCompare`, modelled as lexicographic string order); empty when
the store is null. -/
def paramList (store : Option ParamStore) : List Param :=
  match store with
  | none => []
  | some s =>
    (s.params.map Prod.snd).mergeSort fun a b => decide (a.name ≤ b.name)

/-- The mode filter of `filteredParams` (lines 104-112): `"modified"`
keeps names present in the staging set; `"standard"` keeps names whose
metadata access level is absent, falsy, or `"Standard"`; `"all"` keeps
everything. -/
def modeFilter (staged : Staging) (metadata : Option (SMap ParamMeta))
    (mode : FilterMode) (list : List Param) : List Param :=
  match mode with
  | .modified => list.filter fun p => staged.hasKey p.name
  | .standard =>
    list.filter fun p =>
      match metaFor metadata p.name with
      | none => true
      | some m =>
        match m.userLevel with
        | none => true
        | some lvl => lvl = "" || lvl = "Standard"
  | .all => list

/-- The search filter of `filteredParams` (lines 114-128): a falsy (empty)
search term passes everything; otherwise case-insensitive substring match
on the name and, when metadata is present, its description and human
name. -/
def searchFilter (search : String) (metadata : Option (SMap ParamMeta))
    (list : List Param) : List Param :=
  if search = "" then list
  else
    let term := search.toLower
    list.filter fun p =>
      strIncludes p.name.toLower term ||
        match metaFor metadata p.name with
        | some m =>
          strIncludes m.description.toLower term ||
            strIncludes m.humanName.toLower term
        | none => false

/-- `filteredParams` (lines 101-131): mode filter, then search filter,
over the name-sorted `paramList`. -/
def filteredParams (store : Option ParamStore) (staged : Staging)
    (metadata : Option (SMap ParamMeta)) (mode : FilterMode)
    (search : String) : List Param :=
  searchFilter search metadata (modeFilter staged metadata mode (paramList store))

/-- The edit-confirmation handler `handleConfirm`
(ConfigPanel.tsx lines 527-534): with a truthy `editingParam` and a finite
numeric edit value, stage it; otherwise leave the staging set alone. -/
def handleConfirm (store : Option ParamStore) (staged : Staging)
    (editingParam : Option String) (val : JSNum) : Staging :=
  match editingParam with
  | none => staged
  | some name =>
    if name = "" then staged
    else if val.isFinite then stage store staged name val else staged

/-- `stage` as it acts on the engine state (the hook callback closes over
the current store). -/
def stageS (st : EngineState) (name : String) (value : JSNum) : EngineState :=
  { st with staged := stage st.store st.staged name value }

/-- `unstage` on the engine state. -/
def unstageS (st : EngineState) (name : String) : EngineState :=
  { st with staged := unstage st.staged name }

/-- `unstageAll` on the engine state. -/
def unstageAllS (st : EngineState) : EngineState :=
  { st with staged := unstageAll }

/-- The completion of `applyStaged` on the engine state. -/
def applyCompletionS (st : EngineState)
    (outcome : Except String (List WriteResult)) : EngineState :=
  { st with staged := applyStagedCompletion st.staged outcome }

/-- The staging-set invariant stated by the spec: every staged name either
has a pending value differing from the authoritative value, or is unknown
to the authoritative store. -/
def stagingInv (store : Option ParamStore) (staged : Staging) : Prop :=
  ∀ n v, staged.get? n = some v →
    ∀ c, storeValue store n = some c → jsEq c v = false

/-- The staging-set invariant on the engine state. -/
def invS (st : EngineState) : Prop :=
  stagingInv st.store st.staged

/-! ### Map lemmas -/

theorem SMap.get?_set {α : Type} (m : SMap α) (k n : String) (v : α) :
    (m.set k v).get? n = if k = n then some v else m.get? n := by
  induction m with
  | nil => simp [SMap.set, SMap.get?]
  | cons p rest ih =>
    obtain ⟨k', w⟩ := p
    by_cases hk : k' = k
    · subst hk
      by_cases hn : k' = n <;> simp [SMap.set, SMap.get?, hn]
    · by_cases hn : k' = n
      · subst hn
        have : ¬ k = k' := fun h => hk h.symm
        simp [SMap.set, SMap.get?, hk, this]
      · simp [SMap.set, SMap.get?, hk, hn, ih]

theorem SMap.get?_del {α : Type} (m : SMap α) (k n : String) :
    (m.del k).get? n = if k = n then none else m.get? n := by
  induction m with
  | nil => simp [SMap.del, SMap.get?]
  | cons p rest ih =>
    obtain ⟨k', w⟩ := p
    simp only [SMap.del, List.filter_cons] at ih ⊢
    by_cases hk : k' = k
    · subst hk
      simp only [bne_self_eq_false, Bool.false_eq_true, if_false]
      rw [ih]
      by_cases hn : k' = n
      · subst hn; simp
      · simp [SMap.get?, hn]
    · have hbne : (k' != k) = true := by simp [hk]
      simp only [hbne, if_true]
      by_cases hn : k' = n
      · subst hn
        have hk' : ¬ k = k' := fun h => hk h.symm
        simp [SMap.get?, hk']
      · simp [SMap.get?, hn, ih]

/-! ### Batch-apply lemmas -/

theorem delFold_get? (rs : List WriteResult) (prev : Staging) (n : String) :
    ((rs.foldl (fun m r => m.del r.name) prev).get? n) =
      if rs.any (fun r => r.name == n) then none else prev.get? n := by
  induction rs generalizing prev with
  | nil => simp
  | cons r rest ih =>
    simp only [List.foldl_cons, List.any_cons]
    rw [ih, SMap.get?_del]
    by_cases h : r.name = n <;> simp [h]

theorem removeSucceeded_get? (prev : Staging) (results : List WriteResult)
    (n : String) :
    (removeSucceeded prev results).get? n =
      if results.any (fun r => r.success && r.name == n) then none
      else prev.get? n := by
  unfold removeSucceeded
  rw [delFold_get?]
  have : (results.filter (fun r => r.success)).any (fun r => r.name == n)
      = results.any (fun r => r.success && r.name == n) := by
    induction results with
    | nil => simp
    | cons r rest ih =>
      by_cases hs : r.success <;> simp [List.filter_cons, hs, ih]
  rw [this]

theorem removeSucceeded_nil (results : List WriteResult) :
    removeSucceeded [] results = [] := by
  unfold removeSucceeded
  induction results with
  | nil => simp
  | cons r rest ih =>
    by_cases hs : r.success <;>
      simp_all [List.filter_cons, SMap.del, List.foldl_cons]

/-! ### Import lemmas -/

theorem importUpdate_get? (s : ParamStore) (prev : Staging)
    (parsed : List (String × JSNum)) (n : String) :
    (importUpdate s prev parsed).get? n =
      match parsed.reverse.find? (fun e => e.1 == n && stagesCond s e) with
      | some e => some e.2
      | none => prev.get? n := by
  induction parsed generalizing prev with
  | nil => simp [importUpdate]
  | cons e rest ih =>
    have step : importUpdate s prev (e :: rest)
        = importUpdate s (if stagesCond s e then prev.set e.1 e.2 else prev) rest := by
      simp [importUpdate]
    rw [step, ih]
    rw [List.reverse_cons, List.find?_append]
    cases hf : rest.reverse.find? (fun e => e.1 == n && stagesCond s e) with
    | some x => simp [Option.or]
    | none =>
      simp only [Option.or, Option.none_or]
      by_cases hc : stagesCond s e
      · by_cases hn : e.1 = n
        · simp [List.find?, hc, hn, SMap.get?_set]
        · have hb : (e.1 == n) = false := by simp [hn]
          simp [List.find?, hc, hb, SMap.get?_set, hn]
      · simp [List.find?, hc]

/-! ### Stage lemma -/

theorem stage_get? (store : Option ParamStore) (staged : Staging)
    (name : String) (value : JSNum) (n : String) :
    (stage store staged name value).get? n =
      if n = name then
        match storeValue store name with
        | some c => if jsEq c value then none else some value
        | none => some value
      else staged.get? n := by
  by_cases hn : n = name
  · subst hn
    cases hv : storeValue store n with
    | some c =>
      by_cases he : jsEq c value <;>
        simp [stage, hv, he, SMap.get?_del, SMap.get?_set]
    | none => simp [stage, hv, SMap.get?_set]
  · have hn' : ¬ name = n := fun h => hn h.symm
    cases hv : storeValue store name with
    | some c =>
      by_cases he : jsEq c value <;>
        simp [stage, hv, he, SMap.get?_del, SMap.get?_set, hn, hn']
    | none => simp [stage, hv, SMap.get?_set, hn, hn']

/-! ### Claim theorems -/

/-- C1, counterexample: stage `A ↦ 5` while the authoritative value is `3`,
then let an authoritative push set `A` to `5`.  The claim demands that the
update remove `A` from the staging set; in the code the store-subscription
handler only replaces the store, so `A` stays staged with value `5`. -/
theorem c1_counterexample :
    (onStoreUpdate
        (stageS ⟨some ⟨[("A", ⟨"A", JSNum.num 3⟩)]⟩, [], .standard⟩
          "A" (JSNum.num 5))
        (some ⟨[("A", ⟨"A", JSNum.num 5⟩)]⟩)).staged.get? "A"
        = some (JSNum.num 5) ∧
    storeValue (onStoreUpdate
        (stageS ⟨some ⟨[("A", ⟨"A", JSNum.num 3⟩)]⟩, [], .standard⟩
          "A" (JSNum.num 5))
        (some ⟨[("A", ⟨"A", JSNum.num 5⟩)]⟩)).store "A"
        = some (JSNum.num 5) := by
  decide

/-- C1, amended: no authoritative-store update runs any reconciliation
against the staging set.  A pushed store replaces the store wholesale and a
single-write confirmation patches one entry, and both leave the staging set
exactly as it was, even when the new authoritative value equals a staged
pending value. -/
theorem c1_store_updates_never_unstage
    (st : EngineState) (pushed : Option ParamStore) (name : String)
    (confirmed : Param) :
    (onStoreUpdate st pushed).staged = st.staged ∧
    (onStoreUpdate st pushed).store = pushed ∧
    (writeConfirm st name confirmed).staged = st.staged := by
  refine ⟨rfl, rfl, ?_⟩
  cases h : st.store <;> simp [writeConfirm, h]

/-- C2, counterexample: the snapshot captured `A ↦ 1`, `A` was re-staged to
`2` while the batch was in flight, and the result reports success for `A`.
The claim demands that `A ↦ 2` stay staged; the code deletes every
succeeded name unconditionally, so `A` is gone. -/
theorem c2_counterexample :
    applyStagedSnapshot true [("A", JSNum.num 1)]
      = some [("A", JSNum.num 1)] ∧
    (applyStagedCompletion [("A", JSNum.num 2)]
        (.ok [⟨"A", true⟩])).get? "A" = none := by
  decide

/-- C2, amended: on per-entry results, `applyStaged` removes every name
whose result reports success from the staging set as it is at completion
time, unconditionally — the value submitted in the batch is never compared
with the currently staged value, so a re-staged value for the same name is
removed as well. -/
theorem c2_success_removed_unconditionally
    (prev : Staging) (results : List WriteResult) (name : String)
    (h : ∃ r ∈ results, r.name = name ∧ r.success = true) :
    (applyStagedCompletion prev (.ok results)).get? name = none := by
  obtain ⟨r, hr, hname, hsucc⟩ := h
  have hcompl : applyStagedCompletion prev (.ok results)
      = removeSucceeded prev results := rfl
  rw [hcompl, removeSucceeded_get?]
  have hany : results.any (fun r => r.success && r.name == name) = true := by
    rw [List.any_eq_true]
    exact ⟨r, hr, by simp [hsucc, hname]⟩
  simp [hany]

/-- C2, witness for the amended theorem at a concrete input. -/
theorem c2_witness :
    (applyStagedCompletion [("B", JSNum.num 7)]
        (.ok [⟨"B", true⟩])).get? "B" = none :=
  c2_success_removed_unconditionally _ _ _ ⟨⟨"B", true⟩, by simp, rfl, rfl⟩

/-- C3, counterexample: the invariant holds after staging `A ↦ 5` against
an authoritative value of `3`, but an authoritative push that sets `A` to
`5` leaves `A ↦ 5` staged while the store now also holds `5`, violating
the invariant.  The authoritative-update operation does not preserve it. -/
theorem c3_counterexample :
    invS (stageS ⟨some ⟨[("A", ⟨"A", JSNum.num 3⟩)]⟩, [], .standard⟩
      "A" (JSNum.num 5)) ∧
    ¬ invS (onStoreUpdate
        (stageS ⟨some ⟨[("A", ⟨"A", JSNum.num 3⟩)]⟩, [], .standard⟩
          "A" (JSNum.num 5))
        (some ⟨[("A", ⟨"A", JSNum.num 5⟩)]⟩)) := by
  constructor
  · intro n v h c hc
    by_cases hn : "A" = n
    · subst hn
      simp [stageS, stage, storeValue, SMap.get?, jsEq, SMap.set] at h hc
      subst h
      subst hc
      simp [jsEq]
    · simp [stageS, stage, storeValue, SMap.get?, jsEq, SMap.set, hn] at h
  · intro h
    have h5 := h "A" (JSNum.num 5)
      (by simp [onStoreUpdate, stageS, stage, storeValue, SMap.get?, jsEq,
            SMap.set])
      (JSNum.num 5)
      (by simp [onStoreUpdate, storeValue, SMap.get?])
    simp [jsEq] at h5

/-- C3, amended: the staging-set invariant (every staged name has a pending
value strictly unequal to the authoritative value, or is unknown to the
store) is preserved by `stage`, `unstage`, `unstageAll`, file import and
batch-apply completion — but not by authoritative-store updates, which do
not reconcile the staging set (see the counterexample). -/
theorem c3_invariant_under_staging_ops (st : EngineState) (hinv : invS st) :
    (∀ name value, invS (stageS st name value)) ∧
    (∀ name, invS (unstageS st name)) ∧
    invS (unstageAllS st) ∧
    (∀ parsed, invS (loadFromFile st parsed)) ∧
    (∀ outcome, invS (applyCompletionS st outcome)) := by
  refine ⟨?_, ?_, ?_, ?_, ?_⟩
  · intro name value n v hget c hc
    rw [show (stageS st name value).staged
        = stage st.store st.staged name value from rfl] at hget
    rw [stage_get?] at hget
    by_cases hn : n = name
    · rw [if_pos hn] at hget
      subst hn
      cases hv : storeValue st.store n with
      | some c' =>
        rw [hv] at hget
        by_cases he : jsEq c' value
        · simp [he] at hget
        · simp [he] at hget
          have hc' : c = c' := by
            have hsame : storeValue (stageS st n value).store n
                = storeValue st.store n := rfl
            rw [hsame, hv] at hc
            exact (Option.some_inj.mp hc).symm
          rw [hc', ← hget]
          simpa using he
      | none =>
        have hsame : storeValue (stageS st n value).store n
            = storeValue st.store n := rfl
        rw [hsame, hv] at hc
        exact absurd hc (by simp)
    · rw [if_neg hn] at hget
      exact hinv n v hget c hc
  · intro name n v hget c hc
    rw [show (unstageS st name).staged = st.staged.del name from rfl,
      SMap.get?_del] at hget
    by_cases hn : name = n
    · simp [hn] at hget
    · rw [if_neg hn] at hget
      exact hinv n v hget c hc
  · intro n v hget c hc
    simp [unstageAllS, unstageAll, SMap.get?] at hget
  · intro parsed n v hget c hc
    cases hs : st.store with
    | none =>
      rw [show loadFromFile st parsed = st from by simp [loadFromFile, hs]]
        at hget hc
      exact hinv n v hget c hc
    | some s =>
      have hstore : (loadFromFile st parsed).store = st.store := by
        simp [loadFromFile, hs]
      have hstaged : (loadFromFile st parsed).staged
          = importUpdate s st.staged parsed := by
        simp [loadFromFile, hs]
      rw [hstaged, importUpdate_get?] at hget
      rw [show storeValue (loadFromFile st parsed).store n
          = storeValue st.store n from by rw [hstore]] at hc
      cases hf : parsed.reverse.find? (fun e => e.1 == n && stagesCond s e) with
      | some e =>
        rw [hf] at hget
        have hpe := List.find?_some hf
        have hen : e.1 = n := by
          have hparts := (Bool.and_eq_true _ _).mp hpe
          exact beq_iff_eq.mp hparts.1
        have hcond : stagesCond s e = true :=
          ((Bool.and_eq_true _ _).mp hpe).2
        have hv : v = e.2 := by
          simpa using hget.symm
        have hcs : storeValue st.store n = some c := hc
        rw [hs] at hcs
        have hmapped : (s.params.get? n).map Param.value = some c := by
          simpa [storeValue] using hcs
        rw [stagesCond, hen, hmapped] at hcond
        simp at hcond
        rw [hv]
        exact hcond
      | none =>
        rw [hf] at hget
        exact hinv n v hget c hc
  · intro outcome n v hget c hc
    cases outcome with
    | error err =>
      exact hinv n v hget c hc
    | ok results =>
      rw [show (applyCompletionS st (.ok results)).staged
          = removeSucceeded st.staged results from rfl,
        removeSucceeded_get?] at hget
      by_cases hany : results.any (fun r => r.success && r.name == n) = true
      · simp [hany] at hget
      · rw [if_neg hany] at hget
        exact hinv n v hget c hc

/-- C3, witness for the amended theorem at a concrete input. -/
theorem c3_witness :
    invS (stageS ⟨some ⟨[("B", ⟨"B", JSNum.num 4⟩)]⟩, [], .standard⟩
      "B" (JSNum.num 6)) :=
  (c3_invariant_under_staging_ops
      ⟨some ⟨[("B", ⟨"B", JSNum.num 4⟩)]⟩, [], .standard⟩
      (by intro n v h c hc; simp [SMap.get?] at h)).1 "B" (JSNum.num 6)

/-- C4, counterexample: importing `THR_MIN = 1000001/10000000` (i.e.
`0.1000001`) against an authoritative `THR_MIN = 1/10` is within the
claimed float tolerance `1/10000`, yet the code stages it (comparison is
exact `!==`, not tolerance-based); and importing the unknown name `X`
stages nothing, though the claim demands unknown names be staged
optimistically. -/
theorem c4_counterexample :
    ((1000001 : ℚ) / 10000000 - 1 / 10 ≤ 1 / 10000 ∧
      (loadFromFile
          ⟨some ⟨[("THR_MIN", ⟨"THR_MIN", JSNum.num (1 / 10)⟩)]⟩, [], .all⟩
          [("THR_MIN", JSNum.num (1000001 / 10000000))]).staged.get? "THR_MIN"
        = some (JSNum.num (1000001 / 10000000))) ∧
    (loadFromFile ⟨some ⟨[]⟩, [], .all⟩
        [("X", JSNum.num 5)]).staged.get? "X" = none := by
  refine ⟨⟨by norm_num, ?_⟩, ?_⟩
  · simp [loadFromFile, importUpdate, stagesCond, SMap.get?, SMap.set, jsEq]
    rw [if_neg (by norm_num)]
    simp [SMap.get?]
  · simp [loadFromFile, importUpdate, stagesCond, SMap.get?]

/-- C4, amended: the file import never mutates the authoritative store, and
stages a parsed entry for a name exactly when the store is present, knows
the name, and holds a value not strictly equal (`!==`) to the imported one
— exact comparison with no tolerance, with unknown names skipped and the
last matching file entry for a name winning. -/
theorem c4_import_stages_known_strictly_differing
    (st : EngineState) (parsed : List (String × JSNum)) (n : String) :
    (loadFromFile st parsed).store = st.store ∧
    (loadFromFile st parsed).staged.get? n =
      (match st.store with
       | some s =>
         match parsed.reverse.find? (fun e => e.1 == n && stagesCond s e) with
         | some e => some e.2
         | none => st.staged.get? n
       | none => st.staged.get? n) := by
  cases hs : st.store with
  | none =>
    constructor
    · simp [loadFromFile, hs]
    · simp [loadFromFile, hs]
  | some s =>
    constructor
    · simp [loadFromFile, hs]
    · have hstaged : (loadFromFile st parsed).staged
          = importUpdate s st.staged parsed := by
        simp [loadFromFile, hs]
      rw [hstaged, importUpdate_get?]

/-- C5: a wholesale (transport-level) batch-write failure reaches only the
`catch` arm of `applyStaged`, which reports the error and removes nothing:
the staging set at completion is exactly the staging set before, so the
whole batch remains staged and retryable. -/
theorem c5_wholesale_failure_preserves_staging
    (prev : Staging) (err : String) :
    applyStagedCompletion prev (.error err) = prev := rfl

/-- C6: with per-entry results, a name reported successful is removed from
the staging set and every other name keeps its staged value unchanged; in
particular staged `{A ↦ 1, B ↦ 2}` with success for `A` and failure for
`B` leaves exactly `{B ↦ 2}`. -/
theorem c6_failed_remain_succeeded_removed
    (prev : Staging) (results : List WriteResult) (n : String) :
    ((applyStagedCompletion prev (.ok results)).get? n =
      if results.any (fun r => r.success && r.name == n) then none
      else prev.get? n) ∧
    applyStagedCompletion [("A", JSNum.num 1), ("B", JSNum.num 2)]
        (.ok [⟨"A", true⟩, ⟨"B", false⟩]) = [("B", JSNum.num 2)] :=
  ⟨removeSucceeded_get? prev results n, by decide⟩

/-- C7: `stage(name, value)` is total (no error conditions) and, observed
through lookups: at `name` it removes the staged entry when the store
holds a strictly-equal (`===`) current value, and inserts/overwrites
`name ↦ value` otherwise (including when the store does not know `name`);
every other key is untouched. -/
theorem c7_stage_collapses_or_overwrites
    (store : Option ParamStore) (staged : Staging) (name : String)
    (value : JSNum) (n : String) :
    (stage store staged name value).get? n =
      if n = name then
        match storeValue store name with
        | some c => if jsEq c value then none else some value
        | none => some value
      else staged.get? n :=
  stage_get? store staged name value n

/-- C8, counterexample: with an empty authoritative store and `X ↦ 1`
staged, the ModifiedOnly filter returns no names at all, while the staging
set's key list is `["X"]` — the returned list is not the staging key set,
because the filter draws candidates from the store only. -/
theorem c8_counterexample :
    (filteredParams (some ⟨[]⟩) [("X", JSNum.num 1)] none .modified "").map
        Param.name ≠ SMap.keys [("X", JSNum.num 1)] ∧
    SMap.keys [("X", JSNum.num 1)] = ["X"] := by
  constructor
  · simp [filteredParams, searchFilter, modeFilter, paramList, SMap.keys,
      List.mergeSort_nil]
  · rfl

/-- C8, amended: with mode ModifiedOnly and an empty search term, the
filter returns a name-sorted list containing exactly the params that are
both in the authoritative store's list and present in the staging set;
staged names the store does not list are omitted. -/
theorem c8_modified_returns_store_staged_intersection
    (store : Option ParamStore) (staged : Staging)
    (metadata : Option (SMap ParamMeta)) (n : String) :
    List.Pairwise (fun a b : Param => a.name ≤ b.name)
      (filteredParams store staged metadata .modified "") ∧
    ((∃ p ∈ filteredParams store staged metadata .modified "", p.name = n) ↔
      ((∃ p ∈ paramList store, p.name = n) ∧ staged.hasKey n = true)) := by
  have heq : filteredParams store staged metadata .modified ""
      = (paramList store).filter (fun p => staged.hasKey p.name) := by
    simp [filteredParams, searchFilter, modeFilter]
  have hsorted : List.Pairwise (fun a b : Param => a.name ≤ b.name)
      (paramList store) := by
    cases store with
    | none => simp [paramList]
    | some s =>
      have htrans : ∀ a b c : Param, decide (a.name ≤ b.name) = true →
          decide (b.name ≤ c.name) = true →
          decide (a.name ≤ c.name) = true := by
        intro a b c hab hbc
        simp at hab hbc ⊢
        exact le_trans hab hbc
      have htotal : ∀ a b : Param,
          (decide (a.name ≤ b.name) || decide (b.name ≤ a.name)) = true := by
        intro a b
        simpa using le_total a.name b.name
      have hp := List.sorted_mergeSort htrans htotal (s.params.map Prod.snd)
      exact hp.imp (by intro a b h; simpa using h)
  constructor
  · rw [heq]
    exact hsorted.filter _
  · rw [heq]
    constructor
    · rintro ⟨p, hp, hname⟩
      rw [List.mem_filter] at hp
      exact ⟨⟨p, hp.1, hname⟩, hname ▸ hp.2⟩
    · rintro ⟨⟨p, hp, hname⟩, hkey⟩
      refine ⟨p, ?_, hname⟩
      rw [List.mem_filter]
      exact ⟨hp, by rw [hname]; exact hkey⟩

/-- C9, counterexample: disconnect clears the session, the new session
stages `A ↦ 9`, and then the stale in-flight apply's result (success for
`A`) arrives.  The code has no session token: the stale completion deletes
`A` from the new session's staging set. -/
theorem c9_counterexample :
    (stageS (disconnect
        ⟨some ⟨[("A", ⟨"A", JSNum.num 3⟩)]⟩, [("A", JSNum.num 1)],
          .standard⟩) "A" (JSNum.num 9)).staged.get? "A"
      = some (JSNum.num 9) ∧
    (applyStagedCompletion
        (stageS (disconnect
            ⟨some ⟨[("A", ⟨"A", JSNum.num 3⟩)]⟩, [("A", JSNum.num 1)],
              .standard⟩) "A" (JSNum.num 9)).staged
        (.ok [⟨"A", true⟩])).get? "A" = none := by
  decide

/-- C9, amended: a disconnect clears the authoritative store and the
staging set (and resets the filter mode); a stale apply result arriving
while the new session's staging set is still empty is a no-op, but the
result is not discarded — it is applied to whatever staging set is current
(see the counterexample for the re-staged case). -/
theorem c9_disconnect_clears
    (st : EngineState) (results : List WriteResult) (err : String) :
    (disconnect st).store = none ∧
    (disconnect st).staged = [] ∧
    (disconnect st).filterMode = .all ∧
    applyStagedCompletion (disconnect st).staged (.ok results) = [] ∧
    applyStagedCompletion (disconnect st).staged (.error err) = [] := by
  refine ⟨rfl, rfl, rfl, ?_, rfl⟩
  exact removeSucceeded_nil results

/-- C10, counterexample: a parsed file entry carrying `NaN` for a known
name whose stored value is `1` is staged by the import path with no
finiteness check, so the staging set ends up holding a non-finite value. -/
theorem c10_counterexample :
    (loadFromFile ⟨some ⟨[("X", ⟨"X", JSNum.num 1⟩)]⟩, [], .all⟩
        [("X", JSNum.nan)]).staged.get? "X" = some JSNum.nan ∧
    JSNum.nan.isFinite = false := by
  constructor
  · simp [loadFromFile, importUpdate, stagesCond, SMap.get?, SMap.set, jsEq]
  · rfl

/-- C10, amended: the operator edit-confirmation path rejects non-finite
values before staging (`Number.isFinite` guard), but the file-import path
performs no finiteness check: any parsed value — finite or not — that the
store knows under a strictly-different value is staged. -/
theorem c10_edit_rejects_import_accepts_nonfinite :
    (∀ (store : Option ParamStore) (staged : Staging) (ep : Option String)
        (v : JSNum), v.isFinite = false →
        handleConfirm store staged ep v = staged) ∧
    (∀ (s : ParamStore) (prev : Staging) (name : String) (v current : JSNum),
        storeValue (some s) name = some current →
        jsEq current v = false →
        (importUpdate s prev [(name, v)]).get? name = some v) := by
  constructor
  · intro store staged ep v hv
    cases ep with
    | none => rfl
    | some name =>
      by_cases h : name = "" <;> simp [handleConfirm, h, hv]
  · intro s prev name v current hc hne
    have hm : (s.params.get? name).map Param.value = some current := by
      simpa [storeValue] using hc
    have hcond : stagesCond s (name, v) = true := by
      simp [stagesCond, hm, hne]
    rw [importUpdate_get?]
    simp [List.find?, hcond]

/-- C10, witness for the amended theorem at concrete inputs, with `NaN` as
the non-finite value. -/
theorem c10_witness :
    handleConfirm (some ⟨[("X", ⟨"X", JSNum.num 1⟩)]⟩) [] (some "X")
        JSNum.nan = [] ∧
    (importUpdate ⟨[("X", ⟨"X", JSNum.num 1⟩)]⟩ [] [("X", JSNum.nan)]).get?
        "X" = some JSNum.nan :=
  ⟨c10_edit_rejects_import_accepts_nonfinite.1 _ _ _ _ rfl,
   c10_edit_rejects_import_accepts_nonfinite.2 _ _ _ _ (JSNum.num 1)
     (by simp [storeValue, SMap.get?]) rfl⟩

end IronWing
